import Mathlib

/-!
Verification of the field-extraction core of the Intelligent Invoice Parser.

The repository extracts structured fields (vendor, dates, amounts) from raw
document text with regular expressions.  We embed the Python source shallowly:
strings are lists of characters, Python re.findall scans are modelled by an
explicit left-to-right scanner over suffixes, and the regex patterns of
src/ocr_engine.py and app.py are modelled by per-position matchers that follow
the greedy backtracking semantics of the patterns on ASCII text (the character
classes \d, \w and str.strip whitespace are modelled over ASCII, which is the
alphabet every scenario of the specification uses).
-/

/-- Word characters of the regex \b boundary: ASCII letters, digits and the
underscore (the ASCII core of Python \w). -/
def isWordChar (c : Char) : Bool := c.isAlphanum || c = '_'

/-- Whitespace stripped by Python str.strip, restricted to ASCII. -/
def pyIsSpace (c : Char) : Bool :=
  c = ' ' || c = '\t' || c = '\n' || c = '\r' || c = '\x0B' || c = '\x0C'

/-- Python str.strip: drop leading and trailing whitespace. -/
def pyStrip (s : List Char) : List Char :=
  ((s.dropWhile pyIsSpace).reverse.dropWhile pyIsSpace).reverse

/-- Python str.split with separator a newline: always returns at least one
piece, so the result of splitting the empty string is [[]]. -/
def splitNl : List Char → List (List Char)
  | [] => [[]]
  | c :: rest =>
    if c = '\n' then [] :: splitNl rest
    else
      match splitNl rest with
      | [] => [[c]]
      | l :: ls => (c :: l) :: ls

/-- Python list[-1] with a default: the last element, or the default when the
list is empty (amounts[-1] if amounts else default). -/
def lastOrDefault : List (List Char) → List Char → List Char
  | [], d => d
  | [x], _ => x
  | _ :: y :: ys, d => lastOrDefault (y :: ys) d

/-- Matcher for the date pattern \d{4}-\d{2}-\d{2} at the start of a suffix:
four digits, a dash, two digits, a dash, two digits (length 10). -/
def isoAt (s : List Char) : Option Nat :=
  match s with
  | a :: b :: c :: d :: s1 :: e :: f :: s2 :: g :: h :: _ =>
    if a.isDigit && b.isDigit && c.isDigit && d.isDigit && s1 = '-' &&
       e.isDigit && f.isDigit && s2 = '-' && g.isDigit && h.isDigit then
      some 10
    else none
  | _ => none

/-- Separator class (a slash or a dash) of the second date pattern. -/
def isSep (c : Char) : Bool := c = '/' || c = '-'

/-- Matcher for the second date pattern (two digits, a slash-or-dash
separator, two digits, a separator, then \d{2,4}) at the start of a suffix;
the trailing \d{2,4} is greedy, taking four, then three, then two digits. -/
def dmyAt (s : List Char) : Option Nat :=
  match s with
  | a :: b :: s1 :: c :: d :: s2 :: e :: f :: rest =>
    if a.isDigit && b.isDigit && isSep s1 && c.isDigit && d.isDigit &&
       isSep s2 && e.isDigit && f.isDigit then
      match rest with
      | g :: h :: _ => if g.isDigit then (if h.isDigit then some 10 else some 9) else some 8
      | [g] => if g.isDigit then some 9 else some 8
      | [] => some 8
    else none
  | _ => none

/-- Boundary test after a matched amount: the following character, when one
exists, is not a word character (the trailing \b after a digit). -/
def nextBoundary : List Char → Bool
  | [] => true
  | c :: _ => !isWordChar c

/-- Matcher for the fragment \.\d{2}\b: a dot, two digits, and a boundary. -/
def tryDot (s : List Char) : Option Nat :=
  match s with
  | c0 :: d1 :: d2 :: rest =>
    if c0 = '.' && d1.isDigit && d2.isDigit && nextBoundary rest then some 3 else none
  | _ => none

/-- Matcher for the fragment (?:,\d{3})*\.\d{2}\b with greedy backtracking:
prefer consuming another comma group, and on failure of the rest fall back to
matching the decimal part here. -/
def tryGroups (s : List Char) : Option Nat :=
  match s with
  | c0 :: d1 :: d2 :: d3 :: rest =>
    if c0 = ',' && d1.isDigit && d2.isDigit && d3.isDigit then
      match tryGroups rest with
      | some n => some (n + 4)
      | none => tryDot s
    else tryDot s
  | _ => tryDot s

/-- Matcher for \d{k} followed by the comma-group and decimal fragment. -/
def amountFromK (k : Nat) (s : List Char) : Option Nat :=
  if (s.take k).length = k && (s.take k).all Char.isDigit then
    match tryGroups (s.drop k) with
    | some n => some (k + n)
    | none => none
  else none

/-- Boundary test before a match: at the start of the text, or after a
non-word character (the leading \b before a digit). -/
def boundaryL : Option Char → Bool
  | none => true
  | some c => !isWordChar c

/-- Matcher for the amount pattern \b\d{1,3}(?:,\d{3})*\.\d{2}\b at the start
of a suffix, given the character preceding the suffix; the leading \d{1,3} is
greedy, trying three, then two, then one digit. -/
def amountM (prev : Option Char) (s : List Char) : Option Nat :=
  if boundaryL prev then
    match amountFromK 3 s with
    | some n => some n
    | none =>
      match amountFromK 2 s with
      | some n => some n
      | none => amountFromK 1 s
  else none

/-- Lift a matcher that ignores the preceding character. -/
def liftPrev (f : List Char → Option Nat) : Option Char → List Char → Option Nat :=
  fun _ s => f s

/-- Python re.findall: scan positions left to right; at each unskipped
position try the matcher, emit the matched token with its start index, and
resume scanning just past the match.  skip counts positions still covered by
the previous match; prev is the character before the current position; i is
the current position. -/
def reScan (m : Option Char → List Char → Option Nat) :
    Nat → Option Char → Nat → List Char → List (Nat × List Char)
  | _, _, _, [] => []
  | Nat.succ k, _, i, c :: rest => reScan m k (some c) (i + 1) rest
  | 0, prev, i, c :: rest =>
    match m prev (c :: rest) with
    | some n => (i, (c :: rest).take n) :: reScan m (n - 1) (some c) (i + 1) rest
    | none => reScan m 0 (some c) (i + 1) rest

/-- The tokens of re.findall(pattern, text). -/
def findallM (m : Option Char → List Char → Option Nat) (text : List Char) :
    List (List Char) :=
  (reScan m 0 none 0 text).map Prod.snd

/-- OCREngine.extract_dates: loop over the two date patterns, extending the
result list with the findall matches of each pattern in turn. -/
def extract_dates (text : List Char) : List (List Char) :=
  [liftPrev isoAt, liftPrev dmyAt].foldl (fun dates m => dates ++ findallM m text) []

/-- OCREngine.extract_amounts: one findall pass of the amount pattern. -/
def extract_amounts (text : List Char) : List (List Char) :=
  findallM amountM text

/-- OCREngine.extract_vendor: strip the text, split on newlines, and when the
line list is non-empty return its stripped first line, truncated to 100
characters plus "..." when longer than 100; otherwise the sentinel.  Note the
Python list produced by split is never empty. -/
def extract_vendor (text : List Char) : List Char :=
  match splitNl (pyStrip text) with
  | [] => "Unknown Vendor".toList
  | l0 :: _ =>
    let vendor := pyStrip l0
    if 100 < vendor.length then vendor.take 100 ++ "...".toList else vendor

/-- The stripped first line of the stripped text, as extract_vendor computes
it before the length test. -/
def strippedFirstLine (text : List Char) : List Char :=
  pyStrip ((splitNl (pyStrip text)).headD [])

/-- InvoiceParser._calculate_confidence: base 0.5, plus 0.25 per non-empty
candidate class, capped at 1.0.  Python floats 0.5, 0.25 and their sums are
exact, so rationals model them faithfully. -/
def calculate_confidence (dates amounts : List (List Char)) : ℚ :=
  let score : ℚ := 0.5
  let score := if dates.isEmpty then score else score + 0.25
  let score := if amounts.isEmpty then score else score + 0.25
  min score 1.0

/-- Result record of InvoiceParser.parse. -/
structure InvoiceResult where
  document_type : List Char
  vendor : List Char
  invoice_date : Option (List Char)
  total_amount : List Char
  detected_amounts : List (List Char)
  detected_dates : List (List Char)
  confidence : ℚ
  raw_text_length : Nat

/-- Result record of ReceiptParser.parse. -/
structure ReceiptResult where
  document_type : List Char
  merchant : List Char
  purchase_date : Option (List Char)
  total : List Char
  items_detected : Nat
  confidence : ℚ

/-- InvoiceParser.parse on already-acquired text. -/
def invoiceParse (text : List Char) : InvoiceResult :=
  let dates := extract_dates text
  let amounts := extract_amounts text
  let vendor := extract_vendor text
  { document_type := "invoice".toList
    vendor := vendor
    invoice_date := match dates with | [] => none | d :: _ => some d
    total_amount := lastOrDefault amounts ("0.00".toList)
    detected_amounts := amounts
    detected_dates := dates
    confidence := calculate_confidence dates amounts
    raw_text_length := text.length }

/-- ReceiptParser.parse on already-acquired text. -/
def receiptParse (text : List Char) : ReceiptResult :=
  let dates := extract_dates text
  let amounts := extract_amounts text
  let vendor := extract_vendor text
  { document_type := "receipt".toList
    merchant := vendor
    purchase_date := match dates with | [] => none | d :: _ => some d
    total := lastOrDefault amounts ("0.00".toList)
    items_detected := amounts.length
    confidence := if !dates.isEmpty && !amounts.isEmpty then (0.8 : ℚ) else 0.5 }

/-- Failure of the text-acquisition collaborator (a PDF that cannot be opened
or decoded); the sources raise an exception carrying a reason string. -/
structure ExtractionFailure where
  reason : List Char

/-- InvoiceParser.parse including the text-acquisition step: the parser calls
extract_text_from_pdf first and wraps no handler around it, so an acquisition
failure propagates and no record is built. -/
def invoiceParsePipeline (acquired : Except ExtractionFailure (List Char)) :
    Except ExtractionFailure InvoiceResult :=
  match acquired with
  | Except.error e => Except.error e
  | Except.ok text => Except.ok (invoiceParse text)

/-- ReceiptParser.parse including the text-acquisition step. -/
def receiptParsePipeline (acquired : Except ExtractionFailure (List Char)) :
    Except ExtractionFailure ReceiptResult :=
  match acquired with
  | Except.error e => Except.error e
  | Except.ok text => Except.ok (receiptParse text)

/-- Date matcher of app.py analyze_invoice_data: one alternation pattern,
first alternative preferred at each position. -/
def appDateAt (s : List Char) : Option Nat :=
  match isoAt s with
  | some n => some n
  | none => dmyAt s

/-- Record built by app.py analyze_invoice_data. -/
structure AppInvoiceData where
  vendor : List Char
  invoice_date : List Char
  total_amount : List Char

/-- app.py analyze_invoice_data: same amount pattern, the alternation date
pattern, the raw (unstripped) first line as vendor with a sentinel for empty
text, and the placeholder string for a missing date. -/
def analyze_invoice_data (text : List Char) : AppInvoiceData :=
  let dates := findallM (liftPrev appDateAt) text
  let amounts := findallM amountM text
  { vendor := if text.isEmpty then "Unknown Vendor".toList else (splitNl text).headD []
    invoice_date := match dates with | [] => "Not detected".toList | d :: _ => d
    total_amount := lastOrDefault amounts ("0.00".toList) }

/-- Declarative shape of the decimal fragment: a dot and exactly two digits. -/
def fracPart (s : List Char) : Bool :=
  match s with
  | [c0, d1, d2] => c0 = '.' && d1.isDigit && d2.isDigit
  | _ => false

/-- Declarative shape of the comma-group and decimal fragment: zero or more
groups of a comma and exactly three digits, then the decimal fragment. -/
def groupsPart (s : List Char) : Bool :=
  match s with
  | c0 :: d1 :: d2 :: d3 :: rest =>
    if c0 = ',' && d1.isDigit && d2.isDigit && d3.isDigit then groupsPart rest
    else fracPart s
  | _ => fracPart s

/-- Declarative shape of a whole amount token: one to three leading digits,
then comma groups and the decimal fragment, nothing else. -/
def amountShapeB (t : List Char) : Bool :=
  let lead := t.takeWhile Char.isDigit
  decide (1 ≤ lead.length) && decide (lead.length ≤ 3) && groupsPart (t.drop lead.length)

/-- Declarative shape of a token of the first date pattern. -/
def isoShapeB (t : List Char) : Bool :=
  match t with
  | [a, b, c, d, s1, e, f, s2, g, h] =>
    a.isDigit && b.isDigit && c.isDigit && d.isDigit && s1 = '-' &&
    e.isDigit && f.isDigit && s2 = '-' && g.isDigit && h.isDigit
  | _ => false

/-- Declarative shape of a token of the second date pattern: two digits, a
separator, two digits, a separator, and two to four digits. -/
def dmyShapeB (t : List Char) : Bool :=
  match t with
  | a :: b :: s1 :: c :: d :: s2 :: rest =>
    a.isDigit && b.isDigit && isSep s1 && c.isDigit && d.isDigit && isSep s2 &&
    rest.all Char.isDigit && decide (2 ≤ rest.length) && decide (rest.length ≤ 4)
  | _ => false

/-- The character just before position i of the text, for the boundary
conditions of the amount pattern. -/
def prevAt (text : List Char) (i : Nat) : Option Char :=
  if i = 0 then none else some (text.getD (i - 1) ' ')

lemma lastOrDefault_eq (l : List (List Char)) (d : List Char) :
    lastOrDefault l d = (l.getLast?).getD d := by
  induction l with
  | nil => rfl
  | cons x xs ih =>
    cases xs with
    | nil => rfl
    | cons y ys =>
      rw [List.getLast?_cons_cons]
      exact ih

lemma splitNl_ne_nil (s : List Char) : splitNl s ≠ [] := by
  induction s with
  | nil => simp [splitNl]
  | cons c rest ih =>
    unfold splitNl
    split
    · simp
    · cases h : splitNl rest <;> simp

lemma extract_vendor_eq (text : List Char) :
    extract_vendor text =
      if 100 < (strippedFirstLine text).length then
        (strippedFirstLine text).take 100 ++ "...".toList
      else strippedFirstLine text := by
  unfold extract_vendor strippedFirstLine
  cases h : splitNl (pyStrip text) with
  | nil => exact absurd h (splitNl_ne_nil _)
  | cons l0 ls => simp

lemma calculate_confidence_eq (dates amounts : List (List Char)) :
    calculate_confidence dates amounts =
      min ((0.5 : ℚ) + (if dates = [] then 0 else 0.25) +
        (if amounts = [] then 0 else 0.25)) 1 ∧
    (0.5 : ℚ) ≤ calculate_confidence dates amounts ∧
    calculate_confidence dates amounts ≤ 1 := by
  unfold calculate_confidence
  cases dates <;> cases amounts <;> simp <;> norm_num

/-- Claim C1 (code bug): the sources return the empty string, not the
sentinel "Unknown Vendor", for empty text: Python str.split always returns a
non-empty list, so the sentinel branch of extract_vendor is unreachable, and
the invoice record built from empty text carries an empty vendor field.  More
generally every text whose stripped form is empty yields the empty vendor. -/
theorem vendor_sentinel_unreachable :
    extract_vendor ("".toList) = "".toList ∧
    (invoiceParse ("".toList)).vendor = "".toList ∧
    "Unknown Vendor".toList ≠ "".toList ∧
    ∀ text : List Char, pyStrip text = [] → extract_vendor text = [] := by
  refine ⟨by decide, by decide, by decide, ?_⟩
  intro text h
  rw [extract_vendor_eq]
  have h1 : strippedFirstLine text = [] := by
    unfold strippedFirstLine
    rw [h]
    rfl
  rw [h1]
  simp

/-- Claim C2 counterexample: on empty text, which has no date candidate,
app.py analyze_invoice_data sets the invoice_date field to the placeholder
string "Not detected" rather than a null value. -/
theorem app_invoice_date_placeholder_on_empty :
    findallM (liftPrev appDateAt) ("".toList) = [] ∧
    (analyze_invoice_data ("".toList)).invoice_date = "Not detected".toList ∧
    "Not detected".toList ≠ ([] : List Char) := by
  refine ⟨by decide, by decide, by decide⟩

/-- Claim C2 (amended): InvoiceParser.parse and ReceiptParser.parse put the
first date candidate into the primary date field and None when there is no
candidate; app.py analyze_invoice_data instead stores the placeholder string
"Not detected" when no date candidate exists. -/
theorem primary_date_none_iff_no_candidate (text : List Char) :
    (invoiceParse text).invoice_date = (extract_dates text).head? ∧
    (receiptParse text).purchase_date = (extract_dates text).head? ∧
    (extract_dates text = [] →
      (invoiceParse text).invoice_date = none ∧
      (receiptParse text).purchase_date = none) ∧
    (∀ d l, extract_dates text = d :: l →
      (invoiceParse text).invoice_date = some d ∧
      (receiptParse text).purchase_date = some d) ∧
    (findallM (liftPrev appDateAt) text = [] →
      (analyze_invoice_data text).invoice_date = "Not detected".toList) := by
  refine ⟨?_, ?_, ?_, ?_, ?_⟩
  · cases h : extract_dates text <;> simp [invoiceParse, h]
  · cases h : extract_dates text <;> simp [receiptParse, h]
  · intro h; simp [invoiceParse, receiptParse, h]
  · intro d l h; simp [invoiceParse, receiptParse, h]
  · intro h; simp [analyze_invoice_data, h]

/-- Claim C3: for every text the primary amount of both parsers is the last
extracted amount when one exists and the literal "0.00" otherwise. -/
theorem primary_amount_last_or_default (text : List Char) :
    (invoiceParse text).total_amount = ((extract_amounts text).getLast?).getD ("0.00".toList) ∧
    (receiptParse text).total = ((extract_amounts text).getLast?).getD ("0.00".toList) ∧
    (extract_amounts text = [] →
      (invoiceParse text).total_amount = "0.00".toList ∧
      (receiptParse text).total = "0.00".toList) ∧
    (∀ h : extract_amounts text ≠ [],
      (invoiceParse text).total_amount = (extract_amounts text).getLast h ∧
      (receiptParse text).total = (extract_amounts text).getLast h) := by
  have hi : (invoiceParse text).total_amount =
      ((extract_amounts text).getLast?).getD ("0.00".toList) := by
    simp [invoiceParse, lastOrDefault_eq]
  have hr : (receiptParse text).total =
      ((extract_amounts text).getLast?).getD ("0.00".toList) := by
    simp [receiptParse, lastOrDefault_eq]
  refine ⟨hi, hr, ?_, ?_⟩
  · intro h; rw [hi, hr, h]; simp
  · intro h
    rw [hi, hr, List.getLast?_eq_getLast _ h]
    simp

/-- Claim C4: the invoice confidence is 0.5 plus 0.25 for a non-empty date
list plus 0.25 for a non-empty amount list, capped at 1.0, hence always in
the closed interval from 0.5 to 1.0. -/
theorem invoice_confidence_formula_and_bounds
    (dates amounts : List (List Char)) (text : List Char) :
    calculate_confidence dates amounts =
      min ((0.5 : ℚ) + (if dates = [] then 0 else 0.25) +
        (if amounts = [] then 0 else 0.25)) 1 ∧
    (0.5 : ℚ) ≤ calculate_confidence dates amounts ∧
    calculate_confidence dates amounts ≤ 1 ∧
    (0.5 : ℚ) ≤ (invoiceParse text).confidence ∧
    (invoiceParse text).confidence ≤ 1 := by
  obtain ⟨h1, h2, h3⟩ := calculate_confidence_eq dates amounts
  have hp : (invoiceParse text).confidence =
      calculate_confidence (extract_dates text) (extract_amounts text) := by
    simp [invoiceParse]
  obtain ⟨_, h4, h5⟩ := calculate_confidence_eq (extract_dates text) (extract_amounts text)
  exact ⟨h1, h2, h3, hp ▸ h4, hp ▸ h5⟩

/-- Claim C5: the receipt confidence is 0.8 exactly when both candidate lists
are non-empty and 0.5 otherwise, so it takes no other value. -/
theorem receipt_confidence_two_valued (text : List Char) :
    ((receiptParse text).confidence = 0.8 ↔
      ((extract_dates text).isEmpty = false ∧ (extract_amounts text).isEmpty = false)) ∧
    ((receiptParse text).confidence = 0.8 ∨ (receiptParse text).confidence = 0.5) := by
  cases hd : extract_dates text <;> cases ha : extract_amounts text <;>
    simp [receiptParse, hd, ha] <;> norm_num

/-- Claim C9: the extraction operations are total functions of the text, and
a parse returns an error exactly when text acquisition does, forwarding the
very same failure and building no record in that case. -/
theorem parse_propagates_acquisition_failure (e : ExtractionFailure) (text : List Char) :
    invoiceParsePipeline (Except.error e) = Except.error e ∧
    receiptParsePipeline (Except.error e) = Except.error e ∧
    invoiceParsePipeline (Except.ok text) = Except.ok (invoiceParse text) ∧
    receiptParsePipeline (Except.ok text) = Except.ok (receiptParse text) ∧
    (invoiceParsePipeline (Except.error e)).isOk = false ∧
    (receiptParsePipeline (Except.error e)).isOk = false :=
  ⟨rfl, rfl, rfl, rfl, rfl, rfl⟩

/-- Claim C8: when the stripped first line is longer than 100 characters,
extract_vendor returns its first 100 characters followed by the three-dot
marker, 103 characters in all; any stripped first line of at most 100
characters comes back unmodified. -/
theorem extract_vendor_truncation (text : List Char)
    (h : 100 < (strippedFirstLine text).length) :
    extract_vendor text = (strippedFirstLine text).take 100 ++ "...".toList ∧
    (extract_vendor text).length = 103 ∧
    ∀ t : List Char, (strippedFirstLine t).length ≤ 100 → extract_vendor t = strippedFirstLine t := by
  refine ⟨?_, ?_, ?_⟩
  · rw [extract_vendor_eq, if_pos h]
  · rw [extract_vendor_eq, if_pos h]
    simp [List.length_take]
    omega
  · intro t ht
    rw [extract_vendor_eq, if_neg (by omega)]

set_option maxRecDepth 4000 in
/-- Witness for claim C8 at a 150-character first line. -/
theorem extract_vendor_truncation_w :
    extract_vendor (List.replicate 150 'a') =
      (strippedFirstLine (List.replicate 150 'a')).take 100 ++ "...".toList ∧
    (extract_vendor (List.replicate 150 'a')).length = 103 ∧
    ∀ t : List Char, (strippedFirstLine t).length ≤ 100 → extract_vendor t = strippedFirstLine t :=
  extract_vendor_truncation (List.replicate 150 'a') (by decide)

lemma drop_cons_next {text : List Char} {i : Nat} {c : Char} {rest : List Char}
    (h : text.drop i = c :: rest) : text.drop (i + 1) = rest := by
  rw [← List.tail_drop, h]
  rfl

lemma getD_of_drop_cons {text : List Char} {i : Nat} {c : Char} {rest : List Char}
    (h : text.drop i = c :: rest) : text.getD i ' ' = c := by
  have h1 : text[i]? = some c := by
    have h2 := List.getElem?_drop text i 0
    rw [h] at h2
    simpa using h2.symm
  simp [List.getD_eq_getElem?_getD, h1]

lemma reScan_mem_sound (m : Option Char → List Char → Option Nat) (text : List Char) :
    ∀ s i skip prev, text.drop i = s → prevAt text i = prev →
      ∀ j t, (j, t) ∈ reScan m skip prev i s →
        ∃ n, m (prevAt text j) (text.drop j) = some n ∧
          t = (text.drop j).take n ∧ i ≤ j := by
  intro s
  induction s with
  | nil =>
    intro i skip prev hs hp j t hm
    simp [reScan] at hm
  | cons c rest ih =>
    intro i skip prev hs hp j t hm
    have hdrop : text.drop (i + 1) = rest := drop_cons_next hs
    have hprevnext : prevAt text (i + 1) = some c := by
      unfold prevAt
      rw [if_neg (Nat.succ_ne_zero i), Nat.add_sub_cancel, getD_of_drop_cons hs]
    cases skip with
    | succ k =>
      simp only [reScan] at hm
      obtain ⟨n, h1, h2, h3⟩ := ih (i + 1) k (some c) hdrop hprevnext j t hm
      exact ⟨n, h1, h2, by omega⟩
    | zero =>
      cases hmm : m prev (c :: rest) with
      | none =>
        simp only [reScan, hmm] at hm
        obtain ⟨n, h1, h2, h3⟩ := ih (i + 1) 0 (some c) hdrop hprevnext j t hm
        exact ⟨n, h1, h2, by omega⟩
      | some n =>
        simp only [reScan, hmm, List.mem_cons] at hm
        cases hm with
        | inl heq =>
          obtain ⟨hj, ht⟩ := Prod.mk.injEq .. ▸ heq
          refine ⟨n, ?_, ?_, by omega⟩
          · rw [← hj] at hs hp
            rw [hs, hp, hmm]
          · rw [← hj] at hs
            rw [ht, hs]
        | inr hmem =>
          obtain ⟨n2, h1, h2, h3⟩ := ih (i + 1) (n - 1) (some c) hdrop hprevnext j t hmem
          exact ⟨n2, h1, h2, by omega⟩

lemma isoAt_sound {s : List Char} {n : Nat} (h : isoAt s = some n) :
    n = 10 ∧ isoShapeB (s.take n) = true := by
  unfold isoAt at h
  split at h
  · rename_i a b c d s1 e f s2 g h10 tail
    split at h
    · rename_i hcond
      have hn : n = 10 := by injection h with h; omega
      subst hn
      exact ⟨rfl, hcond⟩
    · exact absurd h (by simp)
  · exact absurd h (by simp)

lemma dmyAt_sound {s : List Char} {n : Nat} (h : dmyAt s = some n) :
    8 ≤ n ∧ n ≤ s.length ∧ dmyShapeB (s.take n) = true := by
  unfold dmyAt at h
  split at h
  · rename_i a b s1 c d s2 e f rest
    split at h
    · rename_i hcond
      simp only [Bool.and_eq_true] at hcond
      obtain ⟨⟨⟨⟨⟨⟨⟨ha, hb⟩, hs1⟩, hc⟩, hd⟩, hs2⟩, he⟩, hf⟩ := hcond
      split at h
      · rename_i g h2 tail
        split at h
        · rename_i hg
          split at h
          · rename_i hh2
            injection h with h
            subst h
            refine ⟨by omega, by simp, ?_⟩
            show dmyShapeB [a, b, s1, c, d, s2, e, f, g, h2] = true
            simp [dmyShapeB, ha, hb, hs1, hc, hd, hs2, he, hf, hg, hh2]
          · injection h with h
            subst h
            refine ⟨by omega, by simp, ?_⟩
            show dmyShapeB [a, b, s1, c, d, s2, e, f, g] = true
            simp [dmyShapeB, ha, hb, hs1, hc, hd, hs2, he, hf, hg]
        · rename_i hg
          injection h with h
          subst h
          refine ⟨by omega, by simp, ?_⟩
          show dmyShapeB [a, b, s1, c, d, s2, e, f] = true
          simp [dmyShapeB, ha, hb, hs1, hc, hd, hs2, he, hf]
      · rename_i g
        split at h
        · rename_i hg
          injection h with h
          subst h
          refine ⟨by omega, by simp, ?_⟩
          show dmyShapeB [a, b, s1, c, d, s2, e, f, g] = true
          simp [dmyShapeB, ha, hb, hs1, hc, hd, hs2, he, hf, hg]
        · injection h with h
          subst h
          refine ⟨by omega, by simp, ?_⟩
          show dmyShapeB [a, b, s1, c, d, s2, e, f] = true
          simp [dmyShapeB, ha, hb, hs1, hc, hd, hs2, he, hf]
      · injection h with h
        subst h
        refine ⟨by omega, by simp, ?_⟩
        show dmyShapeB [a, b, s1, c, d, s2, e, f] = true
        simp [dmyShapeB, ha, hb, hs1, hc, hd, hs2, he, hf]
    · exact absurd h (by simp)
  · exact absurd h (by simp)

lemma extract_dates_concat (text : List Char) :
    extract_dates text =
      findallM (liftPrev isoAt) text ++ findallM (liftPrev dmyAt) text := by
  simp [extract_dates]

lemma mem_findall_shape {shape : List Char → Bool} {f : List Char → Option Nat}
    (hf : ∀ s n, f s = some n → shape (s.take n) = true)
    {text t : List Char} (ht : t ∈ findallM (liftPrev f) text) : shape t = true := by
  unfold findallM at ht
  rw [List.mem_map] at ht
  obtain ⟨⟨j, t0⟩, hmem, rfl⟩ := ht
  obtain ⟨n, hm, heq, _⟩ :=
    reScan_mem_sound (liftPrev f) text text 0 0 none (by simp) (by simp [prevAt]) j t0 hmem
  rw [heq]
  exact hf _ _ hm

/-- Claim C6: extract_dates is the concatenation of the full-text matches of
the first date shape with those of the second, every token of the first block
having the first shape and every token of the second block the second shape,
independently of textual positions; on a text where a second-shape date comes
first, the first-shape match still leads the output. -/
theorem extract_dates_concatenates_shapes (text : List Char) :
    extract_dates text =
      findallM (liftPrev isoAt) text ++ findallM (liftPrev dmyAt) text ∧
    (∀ d ∈ findallM (liftPrev isoAt) text, isoShapeB d = true) ∧
    (∀ d ∈ findallM (liftPrev dmyAt) text, dmyShapeB d = true) ∧
    extract_dates ("01/02/2003 2024-03-15".toList) =
      ["2024-03-15".toList, "01/02/2003".toList, "24-03-15".toList] := by
  refine ⟨extract_dates_concat text, ?_, ?_, by decide⟩
  · intro d hd
    exact mem_findall_shape (fun s n h => ((isoAt_sound h).1 ▸ (isoAt_sound h).2)) hd
  · intro d hd
    exact mem_findall_shape (fun s n h => (dmyAt_sound h).2.2) hd

lemma tryDot_sound {s : List Char} {n : Nat} (h : tryDot s = some n) :
    n = 3 ∧ 3 ≤ s.length ∧ fracPart (s.take 3) = true ∧
    nextBoundary (s.drop 3) = true ∧ s.headD ' ' = '.' := by
  unfold tryDot at h
  split at h
  · rename_i c0 d1 d2 rest
    split at h
    · rename_i hcond
      simp only [Bool.and_eq_true, decide_eq_true_eq] at hcond
      obtain ⟨⟨⟨h0, h1⟩, h2⟩, h3⟩ := hcond
      injection h with h
      subst h
      refine ⟨rfl, by simp, ?_, h3, by simpa using h0⟩
      show fracPart [c0, d1, d2] = true
      simp [fracPart, h0, h1, h2]
    · exact absurd h (by simp)
  · exact absurd h (by simp)

lemma groupsPart_of_fracPart {t : List Char} (h : fracPart t = true) :
    groupsPart t = true := by
  unfold groupsPart
  split
  · rename_i c0 d1 d2 d3 rest
    have hf : fracPart (c0 :: d1 :: d2 :: d3 :: rest) = false := rfl
    rw [hf] at h
    exact absurd h (by simp)
  · exact h

lemma tryGroups_sound_fuel :
    ∀ (fuel : Nat) (s : List Char), s.length ≤ fuel → ∀ n, tryGroups s = some n →
      3 ≤ n ∧ n ≤ s.length ∧ groupsPart (s.take n) = true ∧
      nextBoundary (s.drop n) = true ∧ (s.headD ' ' = ',' ∨ s.headD ' ' = '.') := by
  intro fuel
  induction fuel with
  | zero =>
    intro s hs n h
    have hnil : s = [] := List.length_eq_zero.mp (Nat.le_zero.mp hs)
    subst hnil
    exact absurd h (by simp [tryGroups, tryDot])
  | succ fuel ih =>
    intro s hs n h
    unfold tryGroups at h
    split at h
    · rename_i c0 d1 d2 d3 rest
      split at h
      · rename_i hcond
        simp only [Bool.and_eq_true, decide_eq_true_eq] at hcond
        obtain ⟨⟨⟨h0, h1⟩, h2⟩, h3⟩ := hcond
        cases hrec : tryGroups rest with
        | some m =>
          rw [hrec] at h
          injection h with h
          subst h
          obtain ⟨hm3, hmle, hgp, hnb, _⟩ := ih rest (by simp at hs; omega) m hrec
          refine ⟨by omega, by simp; omega, ?_, ?_, Or.inl (by simp [h0])⟩
          · show groupsPart (c0 :: d1 :: d2 :: d3 :: rest.take m) = true
            simp [groupsPart, h0, h1, h2, h3, hgp]
          · show nextBoundary (rest.drop m) = true
            exact hnb
        | none =>
          rw [hrec] at h
          obtain ⟨_, _, _, _, hdot⟩ := tryDot_sound h
          simp at hdot
          rw [h0] at hdot
          exact absurd hdot (by decide)
      · obtain ⟨hn3, hle, hfrac, hnb, hdot⟩ := tryDot_sound h
        subst hn3
        exact ⟨by omega, hle, groupsPart_of_fracPart hfrac, hnb, Or.inr hdot⟩
    · obtain ⟨hn3, hle, hfrac, hnb, hdot⟩ := tryDot_sound h
      subst hn3
      exact ⟨by omega, hle, groupsPart_of_fracPart hfrac, hnb, Or.inr hdot⟩

lemma tryGroupsP {s : List Char} {n : Nat} (h : tryGroups s = some n) :
    3 ≤ n ∧ n ≤ s.length ∧ groupsPart (s.take n) = true ∧
    nextBoundary (s.drop n) = true ∧ (s.headD ' ' = ',' ∨ s.headD ' ' = '.') :=
  tryGroups_sound_fuel s.length s le_rfl n h

lemma takeWhile_digits_append (D : List Char) (x : Char) (G : List Char)
    (hD : D.all Char.isDigit = true) (hx : Char.isDigit x = false) :
    ((D ++ x :: G).takeWhile Char.isDigit = D) ∧
    ((D ++ x :: G).drop D.length = x :: G) := by
  induction D with
  | nil => simp [List.takeWhile, hx]
  | cons a D ih =>
    simp only [List.all_cons, Bool.and_eq_true] at hD
    obtain ⟨ha, hD2⟩ := hD
    obtain ⟨ih1, ih2⟩ := ih hD2
    constructor
    · simp [List.takeWhile_cons, ha, ih1]
    · simp [ih2]

lemma amountFromK_sound {k : Nat} {s : List Char} {n : Nat}
    (hk1 : 1 ≤ k) (hk3 : k ≤ 3) (h : amountFromK k s = some n) :
    1 ≤ n ∧ n ≤ s.length ∧ amountShapeB (s.take n) = true ∧
    nextBoundary (s.drop n) = true := by
  unfold amountFromK at h
  split at h
  · rename_i hguard
    simp only [Bool.and_eq_true, decide_eq_true_eq] at hguard
    obtain ⟨hlen, hdig⟩ := hguard
    cases hg : tryGroups (s.drop k) with
    | none => rw [hg] at h; exact absurd h (by simp)
    | some m =>
      rw [hg] at h
      injection h with h
      subst h
      obtain ⟨hm3, hmle, hgp, hnb, hhead⟩ := tryGroupsP hg
      have hkle : k ≤ s.length := by
        rw [List.length_take] at hlen; omega
      have hmle2 : m ≤ s.length - k := by
        rw [List.length_drop] at hmle; omega
      refine ⟨by omega, by omega, ?_, ?_⟩
      · obtain ⟨x, xs, hxs⟩ : ∃ x xs, s.drop k = x :: xs := by
          cases hdk : s.drop k with
          | nil => rw [hdk] at hmle; simp at hmle; omega
          | cons x xs => exact ⟨x, xs, rfl⟩
        have hx : Char.isDigit x = false := by
          rw [hxs] at hhead
          simp at hhead
          rcases hhead with h9 | h9 <;> rw [h9] <;> decide
        obtain ⟨m2, rfl⟩ : ∃ m2, m = m2 + 1 := ⟨m - 1, by omega⟩
        rw [List.take_add, hxs, List.take_succ_cons]
        have hTW := takeWhile_digits_append (s.take k) x (xs.take m2) hdig hx
        unfold amountShapeB
        rw [hTW.1]
        show (decide (1 ≤ (List.take k s).length) && decide ((List.take k s).length ≤ 3) &&
          groupsPart (List.drop (List.take k s).length
            (List.take k s ++ x :: List.take m2 xs))) = true
        rw [hTW.2, hlen]
        have hgp2 : groupsPart (x :: xs.take m2) = true := by
          rw [hxs, List.take_succ_cons] at hgp
          exact hgp
        simp [hk1, hk3, hgp2]
      · have hdd : s.drop (k + m) = (s.drop k).drop m := (List.drop_drop m k s).symm
        rw [hdd]
        exact hnb
  · exact absurd h (by simp)

lemma amountM_sound {prev : Option Char} {s : List Char} {n : Nat}
    (h : amountM prev s = some n) :
    boundaryL prev = true ∧ 1 ≤ n ∧ n ≤ s.length ∧
    amountShapeB (s.take n) = true ∧ nextBoundary (s.drop n) = true := by
  unfold amountM at h
  split at h
  · rename_i hb
    cases h3 : amountFromK 3 s with
    | some m =>
      rw [h3] at h
      injection h with h
      subst h
      obtain ⟨a, b, c, d⟩ := amountFromK_sound (by omega) (by omega) h3
      exact ⟨hb, a, b, c, d⟩
    | none =>
      rw [h3] at h
      cases h2 : amountFromK 2 s with
      | some m =>
        rw [h2] at h
        injection h with h
        subst h
        obtain ⟨a, b, c, d⟩ := amountFromK_sound (by omega) (by omega) h2
        exact ⟨hb, a, b, c, d⟩
      | none =>
        rw [h2] at h
        obtain ⟨a, b, c, d⟩ := amountFromK_sound (le_refl 1) (by omega) h
        exact ⟨hb, a, b, c, d⟩
  · exact absurd h (by simp)

/-- Claim C7: every token of the amount scan has the amount shape (one to
three leading digits, comma groups of three digits, a dot, exactly two
fractional digits) and is delimited on both sides by the text boundary or a
non-word character, so no token lacks two decimals and none sits inside a
longer digit run. -/
theorem extract_amounts_shape_and_boundary (text : List Char) (j : Nat) (t : List Char)
    (hmem : (j, t) ∈ reScan amountM 0 none 0 text) :
    t ∈ extract_amounts text ∧
    amountShapeB t = true ∧
    (j = 0 ∨ isWordChar (text.getD (j - 1) ' ') = false) ∧
    (text.length ≤ j + t.length ∨ isWordChar (text.getD (j + t.length) ' ') = false) := by
  obtain ⟨n, hm, ht, _⟩ :=
    reScan_mem_sound amountM text text 0 0 none (by simp) (by simp [prevAt]) j t hmem
  obtain ⟨hb, hn1, hnle, hshape, hnext⟩ := amountM_sound hm
  have htlen : t.length = n := by
    rw [ht, List.length_take]
    omega
  refine ⟨?_, ?_, ?_, ?_⟩
  · unfold extract_amounts findallM
    exact List.mem_map.mpr ⟨(j, t), hmem, rfl⟩
  · rw [ht]
    exact hshape
  · by_cases hj : j = 0
    · exact Or.inl hj
    · refine Or.inr ?_
      unfold prevAt at hb
      rw [if_neg hj] at hb
      simpa [boundaryL] using hb
  · rw [List.drop_drop] at hnext
    cases hdd : text.drop (j + n) with
    | nil =>
      refine Or.inl ?_
      rw [htlen]
      exact List.drop_eq_nil_iff.mp hdd
    | cons x xs =>
      refine Or.inr ?_
      rw [htlen, getD_of_drop_cons hdd]
      rw [hdd] at hnext
      simpa [nextBoundary] using hnext

/-- Witness for claim C7: the match at index 7 of "Total: 1,234.56". -/
theorem extract_amounts_shape_and_boundary_w :
    "1,234.56".toList ∈ extract_amounts ("Total: 1,234.56".toList) ∧
    amountShapeB ("1,234.56".toList) = true ∧
    (7 = 0 ∨ isWordChar (("Total: 1,234.56".toList).getD (7 - 1) ' ') = false) ∧
    (("Total: 1,234.56".toList).length ≤ 7 + ("1,234.56".toList).length ∨
      isWordChar (("Total: 1,234.56".toList).getD (7 + ("1,234.56".toList).length) ' ') = false) :=
  extract_amounts_shape_and_boundary ("Total: 1,234.56".toList) 7 ("1,234.56".toList) (by decide)

lemma reScan_ne_nil_of_match (f : List Char → Option Nat) :
    ∀ (s : List Char) (prev : Option Char) (i : Nat) (c : Char) (rest2 : List Char),
      (c :: rest2) <:+ s → (f (c :: rest2)).isSome = true →
      reScan (liftPrev f) 0 prev i s ≠ [] := by
  intro s
  induction s with
  | nil =>
    intro prev i c rest2 hsuf _
    have := List.suffix_nil.mp hsuf
    simp at this
  | cons a s1 ih =>
    intro prev i c rest2 hsuf hsome
    cases hf : f (a :: s1) with
    | some n =>
      simp only [reScan, liftPrev, hf]
      simp
    | none =>
      simp only [reScan, liftPrev, hf]
      rcases List.suffix_cons_iff.mp hsuf with heq | hsuf2
      · rw [heq, hf] at hsome
        simp at hsome
      · exact ih (some a) (i + 1) c rest2 hsuf2 hsome

lemma isoAt_decomp {s : List Char} {n : Nat} (h : isoAt s = some n) :
    ∃ a b c d e f g h2 tail,
      s = a :: b :: c :: d :: '-' :: e :: f :: '-' :: g :: h2 :: tail ∧
      c.isDigit = true ∧ d.isDigit = true ∧ e.isDigit = true ∧
      f.isDigit = true ∧ g.isDigit = true ∧ h2.isDigit = true := by
  unfold isoAt at h
  split at h
  · rename_i a b c d s1 e f s2 g h10 tail
    split at h
    · rename_i hcond
      simp only [Bool.and_eq_true, decide_eq_true_eq] at hcond
      obtain ⟨⟨⟨⟨⟨⟨⟨⟨⟨ha, hb⟩, hc⟩, hd⟩, hs1⟩, he⟩, hf⟩, hs2⟩, hg⟩, hh⟩ := hcond
      subst hs1
      subst hs2
      exact ⟨a, b, c, d, e, f, g, h10, tail, rfl, hc, hd, he, hf, hg, hh⟩
    · exact absurd h (by simp)
  · exact absurd h (by simp)

lemma dmyAt_isSome (c d e f g h2 : Char) (tail : List Char)
    (hc : c.isDigit = true) (hd : d.isDigit = true) (he : e.isDigit = true)
    (hf : f.isDigit = true) (hg : g.isDigit = true) (hh : h2.isDigit = true) :
    (dmyAt (c :: d :: '-' :: e :: f :: '-' :: g :: h2 :: tail)).isSome = true := by
  cases tail with
  | nil => simp [dmyAt, isSep, hc, hd, he, hf, hg, hh]
  | cons x t2 =>
    cases t2 with
    | nil =>
      cases hx : x.isDigit <;> simp [dmyAt, isSep, hc, hd, he, hf, hg, hh, hx]
    | cons y t3 =>
      cases hx : x.isDigit <;> cases hy : y.isDigit <;>
        simp [dmyAt, isSep, hc, hd, he, hf, hg, hh, hx, hy]

/-- Claim C10: whenever the first date shape matches somewhere in the text,
the second shape also matches (two characters into the first match), so
extract_dates returns at least two candidates; on "2024-03-15" the result is
the pair of the full date and its overlapping duplicate "24-03-15", and both
reach the detected_dates list of the invoice record. -/
theorem iso_date_spurious_duplicate (text : List Char)
    (h : findallM (liftPrev isoAt) text ≠ []) :
    2 ≤ (extract_dates text).length ∧
    extract_dates ("2024-03-15".toList) = ["2024-03-15".toList, "24-03-15".toList] ∧
    (invoiceParse ("2024-03-15".toList)).detected_dates =
      ["2024-03-15".toList, "24-03-15".toList] := by
  refine ⟨?_, by decide, by decide⟩
  have hrs : reScan (liftPrev isoAt) 0 none 0 text ≠ [] := by
    intro hnil
    apply h
    unfold findallM
    rw [hnil]
    rfl
  obtain ⟨⟨j, t⟩, hmem⟩ := List.exists_mem_of_ne_nil _ hrs
  obtain ⟨n, hm, _, _⟩ :=
    reScan_mem_sound (liftPrev isoAt) text text 0 0 none (by simp) (by simp [prevAt]) j t hmem
  have hm2 : isoAt (text.drop j) = some n := hm
  obtain ⟨a, b, c, d, e, f, g, h2, tail, hdec, hc, hd2, he, hf2, hg, hh⟩ := isoAt_decomp hm2
  have hsuf : (c :: d :: '-' :: e :: f :: '-' :: g :: h2 :: tail) <:+ text := by
    have h1 : (text.drop j).drop 2 <:+ text :=
      (List.drop_suffix 2 (text.drop j)).trans (List.drop_suffix j text)
    rw [hdec] at h1
    exact h1
  have hdmy : (dmyAt (c :: d :: '-' :: e :: f :: '-' :: g :: h2 :: tail)).isSome = true :=
    dmyAt_isSome c d e f g h2 tail hc hd2 he hf2 hg hh
  have hne2 : reScan (liftPrev dmyAt) 0 none 0 text ≠ [] :=
    reScan_ne_nil_of_match dmyAt text none 0 c _ hsuf hdmy
  rw [extract_dates_concat, List.length_append]
  have l1 : 0 < (findallM (liftPrev isoAt) text).length := List.length_pos.mpr h
  have l2 : 0 < (findallM (liftPrev dmyAt) text).length := by
    apply List.length_pos.mpr
    unfold findallM
    intro hn
    exact hne2 (List.map_eq_nil_iff.mp hn)
  omega

/-- Witness for claim C10 at the input "2024-03-15". -/
theorem iso_date_spurious_duplicate_w :
    2 ≤ (extract_dates ("2024-03-15".toList)).length ∧
    extract_dates ("2024-03-15".toList) = ["2024-03-15".toList, "24-03-15".toList] ∧
    (invoiceParse ("2024-03-15".toList)).detected_dates =
      ["2024-03-15".toList, "24-03-15".toList] :=
  iso_date_spurious_duplicate ("2024-03-15".toList) (by decide)
